import Mathlib

/-!
Verification of the oni-api keybinding resolution, command-dispatch and menu
ranking engines, as described by the repository's API declarations
(`src/index.ts`) and its accompanying design specification.

The repository's shipped sources are declarative interface files; the only
executable function under `src/` is `Shapes.Rectangle.create`, which is
embedded directly.  The behavioural components (`Input.InputManager`,
`Commands.Api`, `Menu.filterFunc`) are declared but not implemented in the
shipped sources, so they are modelled here from the specification's words and
marked as such in their doc comments.
-/

namespace OniApi

/-! ## Input: binding resolver -/

namespace Input

/-- Modelled from the spec: the `Binding` record of §3 — the implementation of
`Input.InputManager` bindings is not part of the shipped sources (only the
interface `Input.InputManager` is declared).  `chord : KeyChord` is a canonical
string, `action` the bound action, `filter` the optional enabling predicate
(evaluated against an evaluation context `Ctx`), and `registrationOrder` the
monotonically increasing registration stamp. -/
structure Binding (Ctx α : Type) where
  chord : String
  action : α
  filter : Option (Ctx → Bool)
  registrationOrder : Nat

/-- Modelled from the spec: the in-memory state of an `Input.InputManager`
(not implemented in the shipped sources): the list of live bindings in
registration order, plus the next registration stamp. -/
structure InputManagerState (Ctx α : Type) where
  bindings : List (Binding Ctx α)
  nextOrder : Nat

/-- The empty binding table. -/
def InputManagerState.empty (Ctx α : Type) : InputManagerState Ctx α :=
  ⟨[], 0⟩

/-- Modelled from the spec: `bind` for a single chord (§4.1) — the chord
becomes an independent `Binding` stamped with a monotonically increasing
`registrationOrder`.  The shipped sources only declare
`bind(keyChord, actionOrCommand, filterFunction?)`. -/
def bind1 {Ctx α : Type} (s : InputManagerState Ctx α) (chord : String)
    (action : α) (filter : Option (Ctx → Bool)) : InputManagerState Ctx α :=
  { bindings := s.bindings ++ [⟨chord, action, filter, s.nextOrder⟩]
    nextOrder := s.nextOrder + 1 }

/-- Modelled from the spec: `bind` for a set of chords bound identically
(§4.1), each becoming an independent `Binding` with its own stamp. -/
def bindAll {Ctx α : Type} (s : InputManagerState Ctx α) (chords : List String)
    (action : α) (filter : Option (Ctx → Bool)) : InputManagerState Ctx α :=
  chords.foldl (fun acc c => bind1 acc c action filter) s

/-- All bindings registered for a chord, in registration order. -/
def bindingsFor {Ctx α : Type} (s : InputManagerState Ctx α) (chord : String) :
    List (Binding Ctx α) :=
  s.bindings.filter (fun b => b.chord == chord)

/-- Modelled from the spec: `unbind` for a single chord (§4.1) — removes all
bindings registered for the chord, regardless of who registered them. -/
def unbind1 {Ctx α : Type} (s : InputManagerState Ctx α) (chord : String) :
    InputManagerState Ctx α :=
  { s with bindings := s.bindings.filter (fun b => !(b.chord == chord)) }

/-- Modelled from the spec: `unbindAll` clears the entire table (§4.1). -/
def unbindAll {Ctx α : Type} (s : InputManagerState Ctx α) :
    InputManagerState Ctx α :=
  { s with bindings := [] }

/-- Modelled from the spec: `hasBinding` reports whether at least one binding
exists for a chord, independent of filter state (§4.1). -/
def hasBinding {Ctx α : Type} (s : InputManagerState Ctx α) (chord : String) :
    Bool :=
  s.bindings.any (fun b => b.chord == chord)

/-- A binding's filter passes when it is absent or evaluates to true. -/
def filterPasses {Ctx α : Type} (b : Binding Ctx α) (ctx : Ctx) : Bool :=
  match b.filter with
  | none => true
  | some f => f ctx

/-- The candidate bindings for a chord in the order `resolve` evaluates them:
reverse registration order (most-recently-registered first). -/
def candidates {Ctx α : Type} (s : InputManagerState Ctx α) (chord : String) :
    List (Binding Ctx α) :=
  (bindingsFor s chord).reverse

/-- Modelled from the spec: `resolve` (§4.1) — gathers the bindings for the
chord, walks them in reverse registration order, and selects the first whose
filter is absent or true; `none` means the chord is unhandled.  The shipped
sources only declare the resolution contract in the `Input.InputManager`
doc comment. -/
def resolveBinding {Ctx α : Type} (s : InputManagerState Ctx α)
    (chord : String) (ctx : Ctx) : Option (Binding Ctx α) :=
  (candidates s chord).find? (fun b => filterPasses b ctx)

/-- The action of the selected binding, if any. -/
def resolve {Ctx α : Type} (s : InputManagerState Ctx α) (chord : String)
    (ctx : Ctx) : Option α :=
  (resolveBinding s chord ctx).map (fun b => b.action)

/-- Registration orders strictly increase along the bindings list; this holds
for every state reachable by `bind1`/`unbind1`/`unbindAll` from `empty`. -/
def ordersIncreasing {Ctx α : Type} (s : InputManagerState Ctx α) : Prop :=
  s.bindings.Pairwise (fun a b => a.registrationOrder < b.registrationOrder)

/-- The invariant maintained by the manager operations: stamps increase along
the list and stay below the next stamp to hand out. -/
def wellStamped {Ctx α : Type} (s : InputManagerState Ctx α) : Prop :=
  ordersIncreasing s ∧ ∀ b ∈ s.bindings, b.registrationOrder < s.nextOrder

theorem wellStamped_empty (Ctx α : Type) :
    wellStamped (InputManagerState.empty Ctx α) :=
  ⟨List.Pairwise.nil, fun _ h => absurd h (List.not_mem_nil _)⟩

theorem wellStamped_bind1 {Ctx α : Type} {s : InputManagerState Ctx α}
    (h : wellStamped s) (chord : String) (action : α)
    (f : Option (Ctx → Bool)) : wellStamped (bind1 s chord action f) := by
  obtain ⟨hinc, hbound⟩ := h
  constructor
  · rw [ordersIncreasing, bind1, List.pairwise_append]
    refine ⟨hinc, List.pairwise_singleton _ _, ?_⟩
    intro a ha b hb
    rw [List.mem_singleton.mp hb]
    exact hbound a ha
  · intro b hb
    rw [bind1] at hb
    rcases List.mem_append.mp hb with hmem | hmem
    · exact Nat.lt_succ_of_lt (hbound b hmem)
    · rw [List.mem_singleton.mp hmem]
      exact Nat.lt_succ_self _

theorem wellStamped_unbind1 {Ctx α : Type} {s : InputManagerState Ctx α}
    (h : wellStamped s) (chord : String) : wellStamped (unbind1 s chord) := by
  obtain ⟨hinc, hbound⟩ := h
  exact ⟨hinc.sublist (List.filter_sublist _),
    fun b hb => hbound b (List.mem_of_mem_filter hb)⟩

theorem wellStamped_unbindAll {Ctx α : Type} {s : InputManagerState Ctx α}
    (_h : wellStamped s) : wellStamped (unbindAll s) :=
  ⟨List.Pairwise.nil, fun _ h => absurd h (List.not_mem_nil _)⟩

end Input

/-! ## Generic list lemmas shared by the proofs -/

theorem find?_eq_some_iff_split {α : Type} (p : α → Bool) (l : List α) (a : α) :
    l.find? p = some a ↔
      ∃ l₁ l₂, l = l₁ ++ a :: l₂ ∧ (∀ x ∈ l₁, p x = false) ∧ p a = true := by
  induction l with
  | nil => simp
  | cons x xs ih =>
    by_cases hx : p x = true
    · rw [List.find?_cons_of_pos _ hx]
      constructor
      · intro h
        obtain rfl : x = a := Option.some.inj h
        exact ⟨[], xs, rfl, by simp, hx⟩
      · rintro ⟨l₁, l₂, heq, hfail, hpa⟩
        cases l₁ with
        | nil =>
          simp only [List.nil_append, List.cons.injEq] at heq
          rw [heq.1]
        | cons y l₁ =>
          simp only [List.cons_append, List.cons.injEq] at heq
          have hy := hfail y (by simp)
          rw [heq.1, hy] at hx
          cases hx
    · have hx' : p x = false := by simpa using hx
      rw [List.find?_cons_of_neg _ (by simp [hx']), ih]
      constructor
      · rintro ⟨l₁, l₂, rfl, hfail, hpa⟩
        refine ⟨x :: l₁, l₂, rfl, ?_, hpa⟩
        intro z hz
        rcases List.mem_cons.mp hz with rfl | hz
        · exact hx'
        · exact hfail z hz
      · rintro ⟨l₁, l₂, heq, hfail, hpa⟩
        cases l₁ with
        | nil =>
          simp only [List.nil_append, List.cons.injEq] at heq
          rw [heq.1, hpa] at hx'
          cases hx'
        | cons y l₁ =>
          simp only [List.cons_append, List.cons.injEq] at heq
          refine ⟨l₁, l₂, heq.2, ?_, hpa⟩
          intro z hz
          exact hfail z (by simp [hz])

namespace Input

/-! ### Claim theorems for the binding resolver -/

/-- C1: on a chord with two or more bindings, when every candidate's filter is
absent or true, `resolve` selects (and returns the action of) the binding with
the greatest `registrationOrder`, because candidates are evaluated in reverse
registration order. -/
theorem resolve_prefers_latest_registration {Ctx α : Type}
    (s : InputManagerState Ctx α) (chord : String) (ctx : Ctx)
    (hinc : ordersIncreasing s)
    (htwo : 2 ≤ (bindingsFor s chord).length)
    (hall : ∀ b ∈ bindingsFor s chord, filterPasses b ctx = true) :
    ∃ b, resolveBinding s chord ctx = some b ∧
      resolve s chord ctx = some b.action ∧
      b ∈ bindingsFor s chord ∧
      ∀ b' ∈ bindingsFor s chord, b'.registrationOrder ≤ b.registrationOrder := by
  have hpw : (bindingsFor s chord).Pairwise
      (fun a b => a.registrationOrder < b.registrationOrder) :=
    hinc.sublist (List.filter_sublist _)
  have hrev : (candidates s chord).Pairwise
      (fun a b => b.registrationOrder < a.registrationOrder) := by
    rw [candidates, List.pairwise_reverse]
    exact hpw
  cases hc : candidates s chord with
  | nil =>
    exfalso
    have : (bindingsFor s chord).length = 0 := by
      have := congrArg List.length hc
      simpa [candidates] using this
    omega
  | cons b t =>
    have hbmem : b ∈ bindingsFor s chord := by
      rw [← List.mem_reverse]
      show b ∈ candidates s chord
      rw [hc]
      exact List.mem_cons_self _ _
    have hbpass := hall b hbmem
    have hfind : resolveBinding s chord ctx = some b := by
      rw [resolveBinding, hc]
      exact List.find?_cons_of_pos _ hbpass
    refine ⟨b, hfind, by rw [resolve, hfind]; rfl, hbmem, ?_⟩
    intro b' hb'
    have hmemc : b' ∈ candidates s chord := List.mem_reverse.mpr hb'
    rw [hc] at hmemc
    rcases List.mem_cons.mp hmemc with rfl | hmem
    · exact le_refl _
    · have hlt := (List.pairwise_cons.mp (hc ▸ hrev)).1 b' hmem
      exact le_of_lt hlt

/-- Witness for `resolve_prefers_latest_registration`: two bindings on chord
"a" with no filters; the second registration (order 1, action 2) wins. -/
theorem resolve_prefers_latest_registration_witness :
    ∃ b, resolveBinding
        (bind1 (bind1 (InputManagerState.empty Unit Nat) "a" 1 none) "a" 2 none)
        "a" () = some b ∧
      resolve (bind1 (bind1 (InputManagerState.empty Unit Nat) "a" 1 none) "a" 2 none)
        "a" () = some b.action ∧
      b ∈ bindingsFor
        (bind1 (bind1 (InputManagerState.empty Unit Nat) "a" 1 none) "a" 2 none) "a" ∧
      ∀ b' ∈ bindingsFor
        (bind1 (bind1 (InputManagerState.empty Unit Nat) "a" 1 none) "a" 2 none) "a",
        b'.registrationOrder ≤ b.registrationOrder :=
  resolve_prefers_latest_registration _ "a" ()
    (by constructor <;> simp [bind1, InputManagerState.empty])
    (by simp [bind1, bindingsFor, InputManagerState.empty])
    (by
      intro b hb
      simp only [bind1, bindingsFor, InputManagerState.empty] at hb
      fin_cases hb <;> rfl)

/-- C2: `resolve` selects exactly the first candidate (in evaluation order)
whose filter is absent or true, and reports `none` (unhandled, no error) when
every candidate's filter fails; in particular, with a later binding whose
filter is false over an earlier filterless binding, the earlier one's action
is returned. -/
theorem resolve_first_passing_filter {Ctx α : Type}
    (s : InputManagerState Ctx α) (chord : String) (ctx : Ctx) :
    (∀ b : Binding Ctx α, resolveBinding s chord ctx = some b ↔
      ∃ l₁ l₂, candidates s chord = l₁ ++ b :: l₂ ∧
        (∀ b' ∈ l₁, filterPasses b' ctx = false) ∧ filterPasses b ctx = true) ∧
    (resolveBinding s chord ctx = none ↔
      ∀ b ∈ candidates s chord, filterPasses b ctx = false) ∧
    (∀ (a₁ a₂ : α) (f₂ : Ctx → Bool), f₂ ctx = false → bindingsFor s chord = [] →
      resolve (bind1 (bind1 s chord a₁ none) chord a₂ (some f₂)) chord ctx
        = some a₁) := by
  refine ⟨?_, ?_, ?_⟩
  · intro b
    exact find?_eq_some_iff_split (fun b => filterPasses b ctx) (candidates s chord) b
  · rw [resolveBinding, List.find?_eq_none]
    constructor
    · intro h b hb
      have := h b hb
      simpa using this
    · intro h b hb
      simp [h b hb]
  · intro a₁ a₂ f₂ hf₂ hempty
    have hbf : bindingsFor (bind1 (bind1 s chord a₁ none) chord a₂ (some f₂)) chord
        = [⟨chord, a₁, none, s.nextOrder⟩,
           ⟨chord, a₂, some f₂, s.nextOrder + 1⟩] := by
      simp only [bind1, bindingsFor, List.filter_append] at hempty ⊢
      rw [hempty]
      simp
    rw [resolve, resolveBinding, candidates, hbf]
    simp [filterPasses, hf₂]

/-- Witness for `resolve_first_passing_filter`: on the empty manager, a
filterless binding for "x" registered before a binding whose filter is
constantly false; `resolve` falls through to the earlier action 7. -/
theorem resolve_first_passing_filter_witness :
    resolve (bind1 (bind1 (InputManagerState.empty Unit Nat) "x" 7 none) "x" 8
        (some (fun _ => false))) "x" () = some 7 :=
  (resolve_first_passing_filter (InputManagerState.empty Unit Nat) "x" ()).2.2
    7 8 (fun _ => false) rfl rfl

/-- C9: binding a chord and then unbinding it leaves `hasBinding` false from
any starting state, because `unbind` removes every binding for the chord
regardless of who registered it. -/
theorem bind_unbind_roundtrip {Ctx α : Type} (s : InputManagerState Ctx α)
    (chord : String) (action : α) (f : Option (Ctx → Bool)) :
    hasBinding (unbind1 (bind1 s chord action f) chord) chord = false ∧
    ∀ s' : InputManagerState Ctx α, bindingsFor (unbind1 s' chord) chord = [] := by
  constructor
  · rw [hasBinding, unbind1, List.any_eq_false]
    intro b hb
    have hneg := (List.mem_filter.mp hb).2
    simp only [Bool.not_eq_true'] at hneg
    simp [hneg]
  · intro s'
    rw [bindingsFor, unbind1]
    simp only [List.filter_filter]
    apply List.filter_eq_nil_iff.mpr
    intro b _
    cases h : b.chord == chord <;> simp [h]

end Input

/-! ## Commands: command registry -/

namespace Commands

/-- The `Commands.ICommand` record of `src/index.ts`: `command` is the unique
name key, `enabled` the optional enable predicate (evaluated against a context
`Ctx`), `execute` the procedure, modelled as an opaque value of type `α` so
that invocation is observable.  `messageSuccess`/`messageFail` are advisory
metadata. -/
structure ICommand (Ctx α : Type) where
  command : String
  name : String
  detail : String
  enabled : Option (Ctx → Bool)
  messageSuccess : Option String
  messageFail : Option String
  execute : α

/-- Modelled from the spec: the registry state — a mapping from names to
commands, represented as a list where the most recent registration for a name
shadows older ones and registration removes the shadowed entry.  The shipped
sources only declare the `Commands.Api` interface. -/
def Registry (Ctx α : Type) : Type := List (ICommand Ctx α)

/-- Modelled from the spec: `registerCommand` inserts/replaces by name
(last-write-wins, §4.2). -/
def registerCommand {Ctx α : Type} (reg : Registry Ctx α)
    (c : ICommand Ctx α) : Registry Ctx α :=
  c :: reg.filter (fun d => !(d.command == c.command))

/-- Modelled from the spec: `unregisterCommand` removes if present, else
no-op (§4.2). -/
def unregisterCommand {Ctx α : Type} (reg : Registry Ctx α) (name : String) :
    Registry Ctx α :=
  reg.filter (fun d => !(d.command == name))

/-- The command registered under a name, if any. -/
def lookupCommand {Ctx α : Type} (reg : Registry Ctx α) (name : String) :
    Option (ICommand Ctx α) :=
  reg.find? (fun d => d.command == name)

/-- Modelled from the spec: `executeCommand` (§4.2) — fails soft.  The first
component is the boolean result; the second records which procedure was
invoked (`none` when nothing ran, so "does not throw" and "without invoking"
are observable). -/
def executeCommand {Ctx α : Type} (reg : Registry Ctx α) (name : String)
    (ctx : Ctx) : Bool × Option α :=
  match lookupCommand reg name with
  | none => (false, none)
  | some c =>
    match c.enabled with
    | none => (true, some c.execute)
    | some p => if p ctx then (true, some c.execute) else (false, none)

/-- At most one command per name: all stored name keys are distinct. -/
def uniqueNames {Ctx α : Type} (reg : Registry Ctx α) : Prop :=
  reg.Pairwise (fun a b => a.command ≠ b.command)

theorem uniqueNames_registerCommand {Ctx α : Type} (reg : Registry Ctx α)
    (c : ICommand Ctx α) : uniqueNames reg → uniqueNames (registerCommand reg c) := by
  intro h
  rw [uniqueNames, registerCommand, List.pairwise_cons]
  constructor
  · intro d hd
    have := (List.mem_filter.mp hd).2
    simp only [Bool.not_eq_true', beq_eq_false_iff_ne, ne_eq] at this
    exact fun hcd => this hcd.symm
  · exact h.sublist (List.filter_sublist _)

theorem uniqueNames_foldl_registerCommand {Ctx α : Type}
    (cs : List (ICommand Ctx α)) (reg : Registry Ctx α) :
    uniqueNames reg → uniqueNames (cs.foldl registerCommand reg) := by
  induction cs generalizing reg with
  | nil => exact fun h => h
  | cons c cs ih =>
    intro h
    exact ih _ (uniqueNames_registerCommand _ _ h)

/-! ### Claim theorems for the command registry -/

/-- C3: `executeCommand` returns a boolean and fails soft: an unknown name
yields `false` with nothing invoked (no exception is possible: the function is
total); a registered command whose enable predicate is false yields `false`
without invoking `execute`; otherwise `execute` is invoked and the result is
`true`. -/
theorem executeCommand_fails_soft {Ctx α : Type} (reg : Registry Ctx α)
    (name : String) (ctx : Ctx) :
    (lookupCommand reg name = none → executeCommand reg name ctx = (false, none)) ∧
    (∀ c : ICommand Ctx α, lookupCommand reg name = some c →
      ((∀ p, c.enabled = some p → p ctx = false →
          executeCommand reg name ctx = (false, none)) ∧
       (c.enabled = none →
          executeCommand reg name ctx = (true, some c.execute)) ∧
       (∀ p, c.enabled = some p → p ctx = true →
          executeCommand reg name ctx = (true, some c.execute)))) := by
  constructor
  · intro h
    rw [executeCommand, h]
  · intro c hc
    refine ⟨?_, ?_, ?_⟩
    · intro p hp hfalse
      simp [executeCommand, hc, hp, hfalse]
    · intro hnone
      simp [executeCommand, hc, hnone]
    · intro p hp htrue
      simp [executeCommand, hc, hp, htrue]

/-- Witness for `executeCommand_fails_soft`: the empty registry knows no
command named "missing", so execution returns `(false, none)`. -/
theorem executeCommand_fails_soft_witness :
    executeCommand ([] : Registry Unit Nat) "missing" () = (false, none) :=
  (executeCommand_fails_soft ([] : Registry Unit Nat) "missing" ()).1 rfl

/-- C4: commands are uniquely keyed by name.  Registering a second command
with the same name makes it the one looked up, so only its `execute` can ever
be invoked for that name; and every registry built by a sequence of
`registerCommand` calls holds at most one command per name. -/
theorem registerCommand_last_write_wins {Ctx α : Type} (reg : Registry Ctx α)
    (c₁ c₂ : ICommand Ctx α) (ctx : Ctx) (cs : List (ICommand Ctx α))
    (hname : c₁.command = c₂.command) :
    lookupCommand (registerCommand (registerCommand reg c₁) c₂) c₁.command
      = some c₂ ∧
    ((executeCommand (registerCommand (registerCommand reg c₁) c₂) c₁.command
        ctx).2 = none ∨
     (executeCommand (registerCommand (registerCommand reg c₁) c₂) c₁.command
        ctx).2 = some c₂.execute) ∧
    uniqueNames (cs.foldl registerCommand ([] : Registry Ctx α)) := by
  have hlook : lookupCommand (registerCommand (registerCommand reg c₁) c₂)
      c₁.command = some c₂ := by
    rw [lookupCommand, registerCommand]
    apply List.find?_cons_of_pos
    simp [hname]
  refine ⟨hlook, ?_, ?_⟩
  · cases henabled : c₂.enabled with
    | none => exact Or.inr (by simp [executeCommand, hlook, henabled])
    | some p =>
      by_cases hp : p ctx = true
      · exact Or.inr (by simp [executeCommand, hlook, henabled, hp])
      · exact Or.inl (by simp [executeCommand, hlook, henabled, hp])
  · exact uniqueNames_foldl_registerCommand cs [] (List.Pairwise.nil)

/-- Witness for `registerCommand_last_write_wins`: two commands named "c"
registered in turn; lookup finds the second, execution invokes its procedure
(value 2), and a three-element registration sequence keeps names unique. -/
theorem registerCommand_last_write_wins_witness :
    lookupCommand (registerCommand (registerCommand ([] : Registry Unit Nat)
        ⟨"c", "first", "", none, none, none, 1⟩)
        ⟨"c", "second", "", none, none, none, 2⟩) "c"
      = some ⟨"c", "second", "", none, none, none, 2⟩ ∧
    ((executeCommand (registerCommand (registerCommand ([] : Registry Unit Nat)
        ⟨"c", "first", "", none, none, none, 1⟩)
        ⟨"c", "second", "", none, none, none, 2⟩) "c" ()).2 = none ∨
     (executeCommand (registerCommand (registerCommand ([] : Registry Unit Nat)
        ⟨"c", "first", "", none, none, none, 1⟩)
        ⟨"c", "second", "", none, none, none, 2⟩) "c" ()).2 = some 2) ∧
    uniqueNames (([⟨"a", "", "", none, none, none, 1⟩,
        ⟨"b", "", "", none, none, none, 2⟩,
        ⟨"a", "", "", none, none, none, 3⟩] :
      List (ICommand Unit Nat)).foldl registerCommand ([] : Registry Unit Nat)) :=
  registerCommand_last_write_wins ([] : Registry Unit Nat)
    ⟨"c", "first", "", none, none, none, 1⟩
    ⟨"c", "second", "", none, none, none, 2⟩ () _ rfl

end Commands

/-! ## Menu: ranking engine -/

namespace Menu

/-- The `Menu.MenuOption` record of `src/index.ts`: optional icon, label,
optional detail, optional metadata mapping, optional pinned flag. -/
structure MenuOption where
  icon : Option String
  label : String
  detail : Option String
  metadata : Option (List (String × String))
  pinned : Option Bool

/-- The `Menu.IMenuOptionWithHighlights` record of `src/index.ts`: a
`MenuOption` together with the matched label and detail offsets. -/
structure IMenuOptionWithHighlights extends MenuOption where
  labelHighlights : List Nat
  detailHighlights : List Nat

/-- An absent `pinned` flag counts as unpinned. -/
def isPinned (o : MenuOption) : Bool := o.pinned.getD false

/-- Modelled from the spec: case-insensitive subsequence matching (§4.3
step 2) — the match succeeds iff every search character appears in the target
in order, not necessarily contiguously; a greedy left-to-right scan records
the offsets of the matched characters.  The shipped sources only declare the
`Menu.filterFunc` type. -/
def matchOffsetsAux : List Char → List Char → Option (List Nat)
  | [], _ => some []
  | _ :: _, [] => none
  | s :: ss, t :: ts =>
    if s.toLower == t.toLower then
      (matchOffsetsAux ss ts).map (fun l => 0 :: l.map (· + 1))
    else
      (matchOffsetsAux (s :: ss) ts).map (List.map (· + 1))

/-- Match a search string against a target text. -/
def matchOffsets (search target : String) : Option (List Nat) :=
  matchOffsetsAux search.data target.data

/-- Modelled from the spec: the per-item matching step (§4.3 steps 2–3) — the
label and the detail (when present) are matched independently; an item with no
match in either is excluded (`none`); otherwise the matched offsets populate
the highlight fields. -/
def toHighlightResult (searchString : String) (o : MenuOption) :
    Option IMenuOptionWithHighlights :=
  let labelM := matchOffsets searchString o.label
  let detailM := match o.detail with
    | none => none
    | some d => matchOffsets searchString d
  if labelM.isSome || detailM.isSome then
    some ⟨o, labelM.getD [], detailM.getD []⟩
  else
    none

/-- The surviving items with their highlights, in input order. -/
def matchResults (items : List MenuOption) (searchString : String) :
    List IMenuOptionWithHighlights :=
  items.filterMap (toHighlightResult searchString)

/-- Modelled from the spec: the match-quality score (§4.3 step 4b, lower is
better) — earlier and denser offset sets outrank sparse late ones; the spec
leaves the precise scoring open to any monotonic choice, so the sum of the
matched offsets is used. -/
def penalty (r : IMenuOptionWithHighlights) : Nat :=
  r.labelHighlights.sum + r.detailHighlights.sum

/-- Insert into a penalty-sorted list, after strictly better entries and
before equal-or-worse ones, so equal scores keep their input order (§4.3
step 4c). -/
def insertRanked (r : IMenuOptionWithHighlights) :
    List IMenuOptionWithHighlights → List IMenuOptionWithHighlights
  | [] => [r]
  | x :: xs =>
    if penalty x < penalty r then x :: insertRanked r xs else r :: x :: xs

/-- Stable insertion sort by ascending penalty. -/
def sortRanked : List IMenuOptionWithHighlights → List IMenuOptionWithHighlights
  | [] => []
  | r :: rs => insertRanked r (sortRanked rs)

/-- The pinned flag of a result record. -/
def pinnedR (r : IMenuOptionWithHighlights) : Bool := isPinned r.toMenuOption

/-- Modelled from the spec: the ordering step (§4.3 step 4 together with the
§3 invariant) — pinned results precede unpinned ones; pinned results keep
their input order regardless of match quality; unpinned results are ranked by
match quality with input order breaking ties. -/
def orderResults (rs : List IMenuOptionWithHighlights) :
    List IMenuOptionWithHighlights :=
  rs.filter pinnedR ++ sortRanked (rs.filter (fun r => !(pinnedR r)))

/-- The highlight-free result record for an item (§4.3 step 1). -/
def emptyResult (o : MenuOption) : IMenuOptionWithHighlights := ⟨o, [], []⟩

/-- Modelled from the spec: the menu ranking filter `Menu.filterFunc` (§4.3),
declared but not implemented in the shipped sources — an empty search matches
every item with no highlights; otherwise items are matched and the survivors
ordered. -/
def filterMenu (items : List MenuOption) (searchString : String) :
    List IMenuOptionWithHighlights :=
  if searchString.isEmpty then
    orderResults (items.map emptyResult)
  else
    orderResults (matchResults items searchString)

/-! ### Properties of the subsequence matcher -/

theorem matchOffsetsAux_isSome_iff : ∀ (s t : List Char),
    (matchOffsetsAux s t).isSome = true ↔
      (s.map Char.toLower).Sublist (t.map Char.toLower)
  | [], t => by simp [matchOffsetsAux]
  | s :: ss, [] => by simp [matchOffsetsAux]
  | s :: ss, t :: ts => by
    rw [matchOffsetsAux]
    by_cases h : (s.toLower == t.toLower) = true
    · have heq : s.toLower = t.toLower := by simpa using h
      rw [if_pos h, Option.isSome_map', List.map_cons, List.map_cons, heq,
        List.cons_sublist_cons]
      exact matchOffsetsAux_isSome_iff ss ts
    · have hne : s.toLower ≠ t.toLower := by simpa using h
      rw [if_neg h, Option.isSome_map', List.map_cons, List.map_cons,
        matchOffsetsAux_isSome_iff (s :: ss) ts, List.map_cons]
      constructor
      · intro hsub
        exact List.Sublist.cons _ hsub
      · intro hsub
        rcases List.sublist_cons_iff.mp hsub with h' | ⟨r, hr, h'⟩
        · exact h'
        · exact absurd (List.cons.inj hr).1 hne

theorem matchOffsetsAux_offsets : ∀ (s t : List Char) (l : List Nat),
    matchOffsetsAux s t = some l →
      List.Forall₂ (fun c j => ∃ c', t[j]? = some c' ∧ c'.toLower = c.toLower)
        s l ∧
      l.Pairwise (· < ·)
  | [], t, l => by
    intro h
    simp only [matchOffsetsAux, Option.some.injEq] at h
    subst h
    exact ⟨List.Forall₂.nil, List.Pairwise.nil⟩
  | s :: ss, [], l => by
    intro h
    simp [matchOffsetsAux] at h
  | s :: ss, t :: ts, l => by
    rw [matchOffsetsAux]
    by_cases hc : (s.toLower == t.toLower) = true
    · rw [if_pos hc]
      intro h
      obtain ⟨l', hl', rfl⟩ := Option.map_eq_some'.mp h
      obtain ⟨hf, hp⟩ := matchOffsetsAux_offsets ss ts l' hl'
      have heq : s.toLower = t.toLower := by simpa using hc
      constructor
      · refine List.Forall₂.cons ⟨t, by simp, heq.symm⟩ ?_
        rw [List.forall₂_map_right_iff]
        refine hf.imp ?_
        rintro c j ⟨c', hc', hcl⟩
        exact ⟨c', by simpa using hc', hcl⟩
      · rw [List.pairwise_cons]
        constructor
        · intro j hj
          obtain ⟨j', -, rfl⟩ := List.mem_map.mp hj
          omega
        · rw [List.pairwise_map]
          exact hp.imp (fun hab => by omega)
    · rw [if_neg hc]
      intro h
      obtain ⟨l', hl', rfl⟩ := Option.map_eq_some'.mp h
      obtain ⟨hf, hp⟩ := matchOffsetsAux_offsets (s :: ss) ts l' hl'
      constructor
      · rw [List.forall₂_map_right_iff]
        refine hf.imp ?_
        rintro c j ⟨c', hc', hcl⟩
        exact ⟨c', by simpa using hc', hcl⟩
      · rw [List.pairwise_map]
        exact hp.imp (fun hab => by omega)

/-! ### Claim theorems for the matcher -/

/-- C5 counterexample: the label "OpenFile" does match the search "of", but
the matched characters are 'O' at offset 0 and 'F' at offset 4 (the character
at offset 1 is 'p'), so the returned highlight offsets are [0, 4], not the
claimed [0, 1]. -/
theorem matchOffsets_openfile_not_zero_one :
    matchOffsets "of" "OpenFile" = some [0, 4] ∧
    matchOffsets "of" "OpenFile" ≠ some [0, 1] := by
  constructor
  · decide
  · decide

/-- C5 (amended): a non-empty search string matches a target text iff every
search character, compared case-insensitively, appears in the text in order
though not necessarily contiguously; the returned offsets are strictly
increasing positions whose characters spell the search string
case-insensitively; and "OpenFile" matches "of" with highlight offsets
[0, 4]. -/
theorem matchOffsets_subsequence_spec (search target : String)
    (_hne : search ≠ "") :
    ((matchOffsets search target).isSome = true ↔
      (search.data.map Char.toLower).Sublist (target.data.map Char.toLower)) ∧
    (∀ l, matchOffsets search target = some l →
      List.Forall₂
        (fun c j => ∃ c', target.data[j]? = some c' ∧ c'.toLower = c.toLower)
        search.data l ∧
      l.Pairwise (· < ·)) ∧
    matchOffsets "of" "OpenFile" = some [0, 4] := by
  refine ⟨matchOffsetsAux_isSome_iff _ _, ?_, by decide⟩
  intro l h
  exact matchOffsetsAux_offsets _ _ l h

/-- Witness for `matchOffsets_subsequence_spec` at search "of" and target
"OpenFile". -/
theorem matchOffsets_subsequence_spec_witness :
    matchOffsets "of" "OpenFile" = some [0, 4] :=
  (matchOffsets_subsequence_spec "of" "OpenFile" (by decide)).2.2

/-! ### Properties of the ranking order -/

theorem mem_insertRanked (a r : IMenuOptionWithHighlights) :
    ∀ l, a ∈ insertRanked r l ↔ a = r ∨ a ∈ l
  | [] => by simp [insertRanked]
  | x :: xs => by
    rw [insertRanked]
    by_cases h : penalty x < penalty r
    · rw [if_pos h]
      simp only [List.mem_cons, mem_insertRanked a r xs]
      tauto
    · rw [if_neg h]
      simp only [List.mem_cons]

theorem mem_sortRanked (a : IMenuOptionWithHighlights) :
    ∀ l, a ∈ sortRanked l ↔ a ∈ l
  | [] => Iff.rfl
  | r :: rs => by
    rw [sortRanked, mem_insertRanked a r (sortRanked rs)]
    simp only [List.mem_cons, mem_sortRanked a rs]

theorem insertRanked_of_head_not_lt (r : IMenuOptionWithHighlights)
    (l : List IMenuOptionWithHighlights)
    (h : ∀ x ∈ l, ¬(penalty x < penalty r)) :
    insertRanked r l = r :: l := by
  cases l with
  | nil => rfl
  | cons x xs =>
    rw [insertRanked, if_neg (h x (List.mem_cons_self _ _))]

theorem sortRanked_of_all_zero :
    ∀ l : List IMenuOptionWithHighlights, (∀ x ∈ l, penalty x = 0) →
      sortRanked l = l
  | [], _ => rfl
  | r :: rs, h => by
    rw [sortRanked, sortRanked_of_all_zero rs (fun x hx => h x (by simp [hx]))]
    apply insertRanked_of_head_not_lt
    intro x hx
    rw [h x (by simp [hx]), h r (by simp)]
    omega

theorem filter_pinned_orderResults (rs : List IMenuOptionWithHighlights) :
    (orderResults rs).filter pinnedR = rs.filter pinnedR := by
  rw [orderResults, List.filter_append]
  have h1 : (rs.filter pinnedR).filter pinnedR = rs.filter pinnedR :=
    List.filter_eq_self.mpr (fun a ha => (List.mem_filter.mp ha).2)
  have h2 : (sortRanked (rs.filter (fun r => !(pinnedR r)))).filter pinnedR
      = [] := by
    apply List.filter_eq_nil_iff.mpr
    intro a ha
    have hmem := (List.mem_filter.mp ((mem_sortRanked a _).mp ha)).2
    simp only [Bool.not_eq_true'] at hmem
    simp [hmem]
  rw [h1, h2, List.append_nil]

theorem orderResults_pinned_block (rs : List IMenuOptionWithHighlights) :
    ∃ p u, orderResults rs = p ++ u ∧ (∀ r ∈ p, pinnedR r = true) ∧
      ∀ r ∈ u, pinnedR r = false := by
  refine ⟨rs.filter pinnedR, sortRanked (rs.filter (fun r => !(pinnedR r))),
    rfl, ?_, ?_⟩
  · intro r hr
    exact (List.mem_filter.mp hr).2
  · intro r hr
    have hmem := (List.mem_filter.mp ((mem_sortRanked r _).mp hr)).2
    simpa using hmem

theorem toHighlightResult_toMenuOption (s : String) (o : MenuOption)
    (r : IMenuOptionWithHighlights) (h : toHighlightResult s o = some r) :
    r.toMenuOption = o := by
  rw [toHighlightResult] at h
  by_cases hc : ((matchOffsets s o.label).isSome
      || (match o.detail with
          | none => none
          | some d => matchOffsets s d : Option (List Nat)).isSome) = true
  · rw [if_pos hc] at h
    cases Option.some.inj h
    rfl
  · rw [if_neg hc] at h
    cases h

theorem length_filter_add_length_filter_not {α : Type} (l : List α)
    (p : α → Bool) :
    (l.filter p).length + (l.filter (fun a => !(p a))).length = l.length := by
  induction l with
  | nil => rfl
  | cons x xs ih =>
    cases h : p x <;> simp [List.filter_cons, h] <;> omega

/-! ### Claim theorems for the ranking order -/

/-- C6: in the output of the ranking filter, all pinned items precede all
unpinned items, and the pinned part of the output is exactly one left-to-right
pass over the input items (so pinned items keep their relative input order),
regardless of match quality. -/
theorem filterMenu_pinned_first (items : List MenuOption) (s : String) :
    (∃ p u, filterMenu items s = p ++ u ∧ (∀ r ∈ p, pinnedR r = true) ∧
      ∀ r ∈ u, pinnedR r = false) ∧
    (filterMenu items s).filter pinnedR
      = items.filterMap (fun i =>
          if isPinned i then
            (if s.isEmpty then some (emptyResult i) else toHighlightResult s i)
          else none) := by
  by_cases hs : s.isEmpty = true
  · rw [filterMenu, if_pos hs]
    refine ⟨orderResults_pinned_block _, ?_⟩
    rw [filter_pinned_orderResults, List.filter_map,
      ← List.filterMap_eq_map emptyResult, List.filterMap_filter]
    congr 1
    funext i
    by_cases hp : isPinned i = true
    · have hp' : pinnedR (emptyResult i) = true := hp
      simp [Function.comp, hp, hp', hs]
    · have hp' : pinnedR (emptyResult i) = false := by
        simpa using hp
      simp [Function.comp, hp, hp', hs]
  · rw [filterMenu, if_neg hs]
    refine ⟨orderResults_pinned_block _, ?_⟩
    rw [filter_pinned_orderResults, matchResults, List.filter_filterMap]
    congr 1
    funext i
    cases hr : toHighlightResult s i with
    | none => simp [Option.filter, hs]
    | some r =>
      have hro := toHighlightResult_toMenuOption s i r hr
      have hpr : pinnedR r = isPinned i := by rw [pinnedR, hro]
      simp [Option.filter, hs, hpr, hr]

/-- C7: on the empty search string the ranking filter returns every input
item — pinned items first, input order preserved within each part — and every
result carries empty label and detail highlight sequences. -/
theorem filterMenu_empty_returns_all (items : List MenuOption) :
    filterMenu items "" =
      (items.filter isPinned).map emptyResult ++
        (items.filter (fun i => !(isPinned i))).map emptyResult ∧
    (filterMenu items "").length = items.length ∧
    ∀ r ∈ filterMenu items "",
      r.labelHighlights = [] ∧ r.detailHighlights = [] := by
  have hcomp1 : (pinnedR ∘ emptyResult) = isPinned := funext fun i => rfl
  have hcomp2 : ((fun r => !(pinnedR r)) ∘ emptyResult)
      = (fun i => !(isPinned i)) := funext fun i => rfl
  have h1 : (items.map emptyResult).filter pinnedR
      = (items.filter isPinned).map emptyResult := by
    rw [List.filter_map, hcomp1]
  have h2 : (items.map emptyResult).filter (fun r => !(pinnedR r))
      = (items.filter (fun i => !(isPinned i))).map emptyResult := by
    rw [List.filter_map, hcomp2]
  have h3 : sortRanked ((items.filter (fun i => !(isPinned i))).map emptyResult)
      = (items.filter (fun i => !(isPinned i))).map emptyResult := by
    apply sortRanked_of_all_zero
    intro x hx
    obtain ⟨i, -, rfl⟩ := List.mem_map.mp hx
    rfl
  have hmain : filterMenu items "" =
      (items.filter isPinned).map emptyResult ++
        (items.filter (fun i => !(isPinned i))).map emptyResult := by
    rw [filterMenu, if_pos (by decide), orderResults, h1, h2, h3]
  refine ⟨hmain, ?_, ?_⟩
  · rw [hmain, List.length_append, List.length_map, List.length_map]
    exact length_filter_add_length_filter_not items isPinned
  · intro r hr
    rw [hmain] at hr
    rcases List.mem_append.mp hr with h | h <;>
      · obtain ⟨i, -, rfl⟩ := List.mem_map.mp h
        exact ⟨rfl, rfl⟩

/-- C8: the ranking filter is deterministic — equal (items, searchString)
inputs yield equal output sequences, including result order and all highlight
offsets. -/
theorem filterMenu_deterministic (items₁ items₂ : List MenuOption)
    (s₁ s₂ : String) (hitems : items₁ = items₂) (hsearch : s₁ = s₂) :
    filterMenu items₁ s₁ = filterMenu items₂ s₂ := by
  rw [hitems, hsearch]

/-- Witness for `filterMenu_deterministic` on a one-item list and search
"of". -/
theorem filterMenu_deterministic_witness :
    filterMenu [⟨none, "OpenFile", none, none, none⟩] "of"
      = filterMenu [⟨none, "OpenFile", none, none, none⟩] "of" :=
  filterMenu_deterministic _ _ _ _ rfl rfl

end Menu

/-! ## Shapes -/

namespace Shapes

/-- The `Shapes.Rectangle` record of `src/index.ts`.  The TypeScript `number`
fields are modelled as rationals; `create` performs no arithmetic on them, so
the choice of numeric carrier is inert. -/
structure Rectangle where
  x : ℚ
  y : ℚ
  width : ℚ
  height : ℚ

/-- `Shapes.Rectangle.create` from `src/index.ts`: builds the record from the
four arguments. -/
def Rectangle.create (x y width height : ℚ) : Rectangle :=
  { x := x
    y := y
    width := width
    height := height }

/-- C10: `Rectangle.create x y width height` returns a rectangle whose four
fields equal the corresponding arguments exactly. -/
theorem Rectangle.create_fields (x y width height : ℚ) :
    (Rectangle.create x y width height).x = x ∧
    (Rectangle.create x y width height).y = y ∧
    (Rectangle.create x y width height).width = width ∧
    (Rectangle.create x y width height).height = height :=
  ⟨rfl, rfl, rfl, rfl⟩

end Shapes

end OniApi
